import Mathlib

/-!
Verification of the turn-analysis engine of the `listen` repository.

The repository contains three Python scripts that share one analysis
algorithm over diarization segments:

* `app.py` (lines 30-44): a loop over `segments` that accumulates
  per-speaker speaking time in a `defaultdict(float)` and appends an
  interruption record whenever the current turn starts before the
  previous turn ends and the speakers differ;
* `voice_ai_agent.py` (lines 133-147): a textually identical loop;
* `voice_ai_agent_custom.py` (`analyze_speakers_and_interruptions`,
  lines 76-118): converts raw segmentation items to segments with
  freshly generated `SPEAKER_{i:02d}` labels and runs a similar loop
  whose interruption test checks only temporal overlap.

Timestamps are modelled as rationals; Python's `round(x, 2)` is
modelled as round-half-to-even at two decimal places (`rnd2`).  The
Python `dict` (insertion-ordered) is modelled as an association list,
`defaultdict(float)`'s missing-key default as the `lookupD` default 0,
and the `for i in range(len(segments))` loops that read `segments[i]`
and `segments[i-1]` are modelled as left folds that carry the previous
element of the traversal in an `Option Turn` component.
-/

/-- One diarization segment: `(turn.start, turn.end, speaker)` as
consumed by the analysis loops (`turn, _, speaker = segments[i]`). -/
structure Turn where
  start : ℚ
  «end» : ℚ
  speaker : String
deriving DecidableEq

/-- One element of the `interruptions` list built in `app.py` lines
39-44: a dict with keys `time`, `interrupter`, `interrupted`,
`overlap_duration` in that insertion order. -/
structure InterruptionEvent where
  time : ℚ
  interrupter : String
  interrupted : String
  overlap_duration : ℚ
deriving DecidableEq

/-- Python's `round (x, 2)`: scale by 100, round to the nearest
integer with ties going to the even integer, scale back. -/
def rnd2 (q : ℚ) : ℚ :=
  ((if q * 100 - ((⌊q * 100⌋ : ℤ) : ℚ) < 1 / 2 then ⌊q * 100⌋
    else if 1 / 2 < q * 100 - ((⌊q * 100⌋ : ℤ) : ℚ) then ⌊q * 100⌋ + 1
    else if ⌊q * 100⌋ % 2 = 0 then ⌊q * 100⌋
    else ⌊q * 100⌋ + 1 : ℤ) : ℚ) / 100

/-- Python `speaking_times[speaker] += d` on an insertion-ordered dict
(`defaultdict(float)`): add to the existing entry, or append a new
entry at the back when the key is absent. -/
def addTime (m : List (String × ℚ)) (speaker : String) (d : ℚ) :
    List (String × ℚ) :=
  match m with
  | [] => [(speaker, d)]
  | (k, v) :: rest =>
      if k = speaker then (k, v + d) :: rest
      else (k, v) :: addTime rest speaker d

/-- Reading `speaking_times[s]` with `defaultdict(float)` semantics:
the stored value, or `0` for an absent key. -/
def lookupD (m : List (String × ℚ)) (s : String) : ℚ :=
  match m with
  | [] => 0
  | (k, v) :: rest => if k = s then v else lookupD rest s

/-- The body of the `app.py` loop (lines 30-44) at one index `i`.  The
state is `(speaking_times, interruptions, previous segment)`; the
third component is `none` exactly when `i = 0`, mirroring the `i > 0`
guard around the `segments[i-1]` read. -/
def stepApp (st : List (String × ℚ) × List InterruptionEvent × Option Turn)
    (turn : Turn) :
    List (String × ℚ) × List InterruptionEvent × Option Turn :=
  let speaking := addTime st.1 turn.speaker (turn.«end» - turn.start)
  let ints :=
    match st.2.2 with
    | some prev =>
        if turn.start < prev.«end» ∧ turn.speaker ≠ prev.speaker then
          st.2.1 ++ [⟨rnd2 turn.start, turn.speaker, prev.speaker,
                      rnd2 (prev.«end» - turn.start)⟩]
        else st.2.1
    | none => st.2.1
  (speaking, ints, some turn)

/-- The analysis loop of `app.py` lines 30-44: the final
`speaking_times` dict and the final `interruptions` list. -/
def analyzeApp (segments : List Turn) :
    List (String × ℚ) × List InterruptionEvent :=
  let r := segments.foldl stepApp ([], [], none)
  (r.1, r.2.1)

/-- The body of the `voice_ai_agent.py` loop (lines 133-147),
translated independently; it is textually the same algorithm as the
`app.py` loop. -/
def stepAgent (st : List (String × ℚ) × List InterruptionEvent × Option Turn)
    (turn : Turn) :
    List (String × ℚ) × List InterruptionEvent × Option Turn :=
  let speaking := addTime st.1 turn.speaker (turn.«end» - turn.start)
  let ints :=
    match st.2.2 with
    | some prev =>
        if turn.start < prev.«end» ∧ turn.speaker ≠ prev.speaker then
          st.2.1 ++ [⟨rnd2 turn.start, turn.speaker, prev.speaker,
                      rnd2 (prev.«end» - turn.start)⟩]
        else st.2.1
    | none => st.2.1
  (speaking, ints, some turn)

/-- The analysis loop of `voice_ai_agent.py` lines 133-147. -/
def analyzeAgent (segments : List Turn) :
    List (String × ℚ) × List InterruptionEvent :=
  let r := segments.foldl stepAgent ([], [], none)
  (r.1, r.2.1)

/-- The `report` dict of `app.py` lines 47-52. -/
structure Report where
  total_speakers : ℕ
  speaking_times : List (String × ℚ)
  total_interruptions : ℕ
  interruptions : List InterruptionEvent
deriving DecidableEq

/-- Lines 47-52 of `app.py`: `total_speakers = len(speaking_times)`,
`speaking_times = {spk: round(t, 2) for spk, t in ...}`,
`total_interruptions = len(interruptions)`. -/
def buildReport (speaking_times : List (String × ℚ))
    (interruptions : List InterruptionEvent) : Report :=
  { total_speakers := speaking_times.length
    speaking_times := speaking_times.map (fun p => (p.1, rnd2 p.2))
    total_interruptions := interruptions.length
    interruptions := interruptions }

/-- The CSV file written by `app.py` lines 59-64: a header row and one
row per interruption event. -/
structure CSVFile where
  header : List String
  rows : List InterruptionEvent
deriving DecidableEq

/-- Lines 59-64 of `app.py`: a `DataFrame` of the interruption records
(whose columns are the dict keys, in insertion order) when the list is
non-empty, otherwise an explicit header-only frame with the same
columns. -/
def interruptionsCSV (interruptions : List InterruptionEvent) : CSVFile :=
  if interruptions.isEmpty then
    ⟨["time", "interrupter", "interrupted", "overlap_duration"], []⟩
  else
    ⟨["time", "interrupter", "interrupted", "overlap_duration"], interruptions⟩

/-- Modelled from the spec (section 4.2): the per-adjacent-pair rule.
An event is emitted for `(previous, current)` iff `current.start <
previous.end` and `current.speaker != previous.speaker`, with `time =
round(current.start, 2)`, `interrupter = current.speaker`,
`interrupted = previous.speaker` and `overlap_duration =
round(previous.end - current.start, 2)`. -/
def pairEvent (prev cur : Turn) : Option InterruptionEvent :=
  if cur.start < prev.«end» ∧ cur.speaker ≠ prev.speaker then
    some ⟨rnd2 cur.start, cur.speaker, prev.speaker,
          rnd2 (prev.«end» - cur.start)⟩
  else none

/-- Modelled from the spec (section 4.2): the detector applies
`pairEvent` to each adjacent pair `(turns[i-1], turns[i])`, `i` from
`1` to `n-1`, in order, keeping the emitted events. -/
def detectorSpec (turns : List Turn) : List InterruptionEvent :=
  (turns.zip turns.tail).filterMap (fun p => pairEvent p.1 p.2)

/-- The speaking-time accumulation step alone: what the loop does to
`speaking_times` at each index. -/
def accStep (m : List (String × ℚ)) (t : Turn) : List (String × ℚ) :=
  addTime m t.speaker (t.«end» - t.start)

/-! ## Projection lemmas for the `app.py` loop -/

theorem foldl_stepApp_fst (l : List Turn)
    (st : List (String × ℚ) × List InterruptionEvent × Option Turn) :
    (l.foldl stepApp st).1 = l.foldl accStep st.1 := by
  induction l generalizing st with
  | nil => rfl
  | cons t l ih => simpa [stepApp, accStep] using ih (stepApp st t)

theorem analyzeApp_fst (segments : List Turn) :
    (analyzeApp segments).1 = segments.foldl accStep [] := by
  simpa [analyzeApp] using foldl_stepApp_fst segments ([], [], none)

theorem foldl_stepApp_snd (l : List Turn) (m : List (String × ℚ))
    (ints : List InterruptionEvent) (prev : Turn) :
    (l.foldl stepApp (m, ints, some prev)).2.1
      = ints ++ ((prev :: l).zip l).filterMap (fun p => pairEvent p.1 p.2) := by
  induction l generalizing m ints prev with
  | nil => simp
  | cons t l ih =>
      by_cases h : t.start < prev.«end» ∧ t.speaker ≠ prev.speaker
      · simp [stepApp, h, ih, pairEvent]
      · simp [stepApp, h, ih, pairEvent]

/-- The interruption list of the `app.py` loop is exactly the
pairwise detector of the spec. -/
theorem analyzeApp_snd (segments : List Turn) :
    (analyzeApp segments).2 = detectorSpec segments := by
  cases segments with
  | nil => rfl
  | cons t l =>
      have h0 : stepApp ([], [], none) t
          = (addTime [] t.speaker (t.«end» - t.start), [], some t) := rfl
      simp only [analyzeApp, detectorSpec, List.foldl_cons, h0, List.tail_cons]
      simpa using foldl_stepApp_snd l (addTime [] t.speaker (t.«end» - t.start)) [] t

/-! ## Dictionary lemmas -/

theorem lookupD_addTime (m : List (String × ℚ)) (k : String) (d : ℚ)
    (s : String) :
    lookupD (addTime m k d) s
      = if s = k then lookupD m s + d else lookupD m s := by
  induction m with
  | nil =>
      by_cases h : s = k
      · simp [addTime, lookupD, h]
      · have h2 : ¬ k = s := fun e => h e.symm
        simp [addTime, lookupD, h, h2]
  | cons p rest ih =>
      obtain ⟨a, b⟩ := p
      by_cases hak : a = k
      · by_cases has : a = s
        · simp [addTime, lookupD, hak, has, hak ▸ has.symm]
        · have hsk : ¬ s = k := fun h => has (hak.trans h.symm)
          have hks : ¬ k = s := fun e => hsk e.symm
          simp [addTime, lookupD, hak, has, hsk, hks]
      · by_cases has : a = s
        · have hsk : ¬ s = k := fun h => hak (has.symm ▸ h)
          simp [addTime, lookupD, hak, has, hsk]
        · simp [addTime, lookupD, hak, has, ih]

theorem lookupD_foldl_accStep (l : List Turn) (m : List (String × ℚ))
    (s : String) :
    lookupD (l.foldl accStep m) s
      = lookupD m s
        + ((l.filter (fun t => t.speaker = s)).map
            (fun t => t.«end» - t.start)).sum := by
  induction l generalizing m with
  | nil => simp
  | cons t l ih =>
      by_cases h : t.speaker = s
      · simp only [List.foldl_cons, ih, accStep, lookupD_addTime,
          List.filter_cons, h]
        simp [h, add_assoc]
      · have h2 : ¬ s = t.speaker := fun e => h e.symm
        simp only [List.foldl_cons, ih, accStep, lookupD_addTime,
          List.filter_cons, h]
        simp [h, h2]

/-! ## Key-set lemmas -/

theorem keys_addTime (m : List (String × ℚ)) (k : String) (d : ℚ) :
    (addTime m k d).map Prod.fst
      = if k ∈ m.map Prod.fst then m.map Prod.fst
        else m.map Prod.fst ++ [k] := by
  induction m with
  | nil => simp [addTime]
  | cons p rest ih =>
      obtain ⟨a, b⟩ := p
      by_cases hak : a = k
      · simp [addTime, hak]
      · have hka : ¬ k = a := fun e => hak e.symm
        by_cases hm : k ∈ rest.map Prod.fst
        · simp [addTime, hak, ih, hka, hm]
        · simp [addTime, hak, ih, hka, hm]

theorem keys_nodup_addTime (m : List (String × ℚ)) (k : String) (d : ℚ)
    (h : (m.map Prod.fst).Nodup) :
    ((addTime m k d).map Prod.fst).Nodup := by
  rw [keys_addTime]
  by_cases hk : k ∈ m.map Prod.fst
  · simpa [hk] using h
  · simp [hk, List.nodup_append, h]

theorem keys_nodup_foldl_accStep (l : List Turn) (m : List (String × ℚ))
    (h : (m.map Prod.fst).Nodup) :
    ((l.foldl accStep m).map Prod.fst).Nodup := by
  induction l generalizing m with
  | nil => simpa using h
  | cons t l ih => exact ih _ (keys_nodup_addTime _ _ _ h)

/-! ## Rounding lemmas -/

theorem rnd2_nonneg (q : ℚ) (h : 0 < q) : 0 ≤ rnd2 q := by
  have hs : (0 : ℚ) ≤ q * 100 := by positivity
  have hf : (0 : ℤ) ≤ ⌊q * 100⌋ := Int.floor_nonneg.mpr hs
  unfold rnd2
  have h1 : (0 : ℤ) ≤ ⌊q * 100⌋ + 1 := by omega
  split_ifs <;>
    exact div_nonneg (by exact_mod_cast (by omega : (0 : ℤ) ≤ _)) (by norm_num)

/-- When `q` is an exact multiple of `1/100`, rounding returns it
unchanged. -/
theorem rnd2_exact (q : ℚ) (n : ℤ) (h : q * 100 = (n : ℚ)) :
    rnd2 q = (n : ℚ) / 100 := by
  rw [rnd2, h]
  norm_num [Int.floor_intCast]

/-! ## Claim theorems -/

/-- Claim C2: for every ordered turn sequence, the `app.py` loop emits
an interruption event for the adjacent pair `(turns[i-1], turns[i])`,
`i` from `1` to `n-1`, exactly when `current.start < previous.end` and
`current.speaker != previous.speaker`, and the emitted event carries
`time = round(current.start, 2)`, `interrupter = current.speaker`,
`interrupted = previous.speaker`, `overlap_duration =
round(previous.end - current.start, 2)`: the loop's interruption list
equals the spec's pairwise detector. -/
theorem c2_detector_iff_adjacent_pairs (segments : List Turn) :
    (analyzeApp segments).2 = detectorSpec segments :=
  analyzeApp_snd segments

/-- Claim C6: the analysis loop of `voice_ai_agent.py` and the
analysis loop of `app.py` compute the same speaking-time mapping and
the same ordered interruption list on every segment sequence. -/
theorem c6_agent_equals_app (segments : List Turn) :
    analyzeAgent segments = analyzeApp segments := rfl

/-- Claim C7: on A(0,5,"X"), B(3,8,"Y"), C(10,12,"X") the loop
produces exactly one interruption event, for the pair (A,B), with
`time = 3.0`, `interrupter = "Y"`, `interrupted = "X"`,
`overlap_duration = 2.0`; the pair (B,C) produces nothing. -/
theorem c7_three_turn_example :
    (analyzeApp [⟨0, 5, "X"⟩, ⟨3, 8, "Y"⟩, ⟨10, 12, "X"⟩]).2
      = [⟨3, "Y", "X", 2⟩] := by
  norm_num [analyzeApp, stepApp, addTime, rnd2]
  decide

/-- Claim C9: the empty turn sequence is analyzed without error and
yields the all-empty report together with a header-only CSV file. -/
theorem c9_empty_input :
    analyzeApp [] = ([], [])
    ∧ buildReport (analyzeApp []).1 (analyzeApp []).2 = ⟨0, [], 0, []⟩
    ∧ interruptionsCSV (analyzeApp []).2
        = ⟨["time", "interrupter", "interrupted", "overlap_duration"], []⟩ :=
  ⟨rfl, rfl, rfl⟩

/-- Claim C1 counterexample: the code performs no validation and
defines no error for a turn with `end < start`; analyzing the single
turn (5, 3, "X") silently adds its negative duration to the totals and
still produces a report. -/
theorem c1_counterexample :
    (analyzeApp [⟨5, 3, "X"⟩]).1 = [("X", -2)]
    ∧ buildReport (analyzeApp [⟨5, 3, "X"⟩]).1 (analyzeApp [⟨5, 3, "X"⟩]).2
        = ⟨1, [("X", -2)], 0, []⟩ := by
  constructor
  · norm_num [analyzeApp, stepApp, addTime]
  · have h2 : rnd2 (-2 : ℚ) = -2 := by
      rw [rnd2_exact (-2 : ℚ) (-200) (by norm_num)]
      norm_num
    norm_num [analyzeApp, stepApp, addTime, buildReport, h2]

/-- Claim C1, amended: the analysis is total and raises nothing; every
turn, including one with `end < start`, has its (possibly negative)
duration `end - start` added to the running total of its speaker. -/
theorem c1_negative_turn_accumulated (ts : List Turn) (t : Turn) :
    lookupD (analyzeApp (ts ++ [t])).1 t.speaker
      = lookupD (analyzeApp ts).1 t.speaker + (t.«end» - t.start) := by
  rw [analyzeApp_fst, analyzeApp_fst, List.foldl_append]
  simp [accStep, lookupD_addTime]

/-- Claim C3, amended: in the `app.py` / `voice_ai_agent.py` loop an
adjacent pair with equal speakers never emits an event, even when the
turns overlap — every pair position with equal speakers contributes
`none` — and in particular A(0,5,"X"), B(3,8,"X") yields no events.
(The claim fails for `voice_ai_agent_custom.py`, see the
counterexample.) -/
theorem c3_same_speaker_suppressed :
    (∀ segments : List Turn,
      (analyzeApp segments).2
        = (segments.zip segments.tail).filterMap (fun p =>
            if p.1.speaker = p.2.speaker then none else pairEvent p.1 p.2))
    ∧ (analyzeApp [⟨0, 5, "X"⟩, ⟨3, 8, "X"⟩]).2 = [] := by
  constructor
  · intro segments
    rw [analyzeApp_snd, detectorSpec]
    have hfun : (fun p : Turn × Turn => pairEvent p.1 p.2)
        = fun p : Turn × Turn =>
            if p.1.speaker = p.2.speaker then none else pairEvent p.1 p.2 := by
      funext p
      by_cases h : p.1.speaker = p.2.speaker
      · simp [pairEvent, h]
      · simp [h]
    rw [hfun]
  · norm_num [analyzeApp, stepApp, addTime]

/-- Claim C4 counterexample: on turns (0, 3.001, "X"), (3, 8, "Y") an
event is emitted (raw overlap 0.001 > 0) but its stored
`overlap_duration` is `round(0.001, 2) = 0`, which is not `> 0`. -/
theorem c4_counterexample :
    ¬ (∀ e ∈ (analyzeApp [⟨0, 3001 / 1000, "X"⟩, ⟨3, 8, "Y"⟩]).2,
        0 < e.overlap_duration) := by
  have hl : (analyzeApp [⟨0, 3001 / 1000, "X"⟩, ⟨3, 8, "Y"⟩]).2
      = [⟨3, "Y", "X", 0⟩] := by
    norm_num [analyzeApp, stepApp, addTime, rnd2]
    decide
  intro h
  have h0 := h ⟨3, "Y", "X", 0⟩ (by rw [hl]; exact List.mem_singleton_self _)
  exact absurd h0 (by norm_num)

/-- Claim C4, amended: every emitted event has a strictly positive raw
overlap, so its rounded `overlap_duration` field is `≥ 0` (it can be
`0` when the raw overlap is below half a hundredth). -/
theorem c4_overlap_duration_nonneg (ts : List Turn) (e : InterruptionEvent)
    (he : e ∈ (analyzeApp ts).2) : 0 ≤ e.overlap_duration := by
  rw [analyzeApp_snd, detectorSpec] at he
  rcases List.mem_filterMap.mp he with ⟨p, hp, hpe⟩
  by_cases h : p.2.start < p.1.«end» ∧ p.2.speaker ≠ p.1.speaker
  · rw [pairEvent, if_pos h] at hpe
    obtain rfl := Option.some.inj hpe
    exact rnd2_nonneg _ (sub_pos.mpr h.1)
  · rw [pairEvent, if_neg h] at hpe
    cases hpe

/-- Witness for C4: the event of the pair (0,5,"X"), (3,8,"Y") is in
the output and has non-negative `overlap_duration`. -/
theorem c4_overlap_duration_nonneg_witness :
    (⟨3, "Y", "X", 2⟩ : InterruptionEvent)
        ∈ (analyzeApp [⟨0, 5, "X"⟩, ⟨3, 8, "Y"⟩]).2
    ∧ 0 ≤ (⟨3, "Y", "X", 2⟩ : InterruptionEvent).overlap_duration := by
  have hv : (analyzeApp [⟨0, 5, "X"⟩, ⟨3, 8, "Y"⟩]).2 = [⟨3, "Y", "X", 2⟩] := by
    norm_num [analyzeApp, stepApp, addTime, rnd2]
    decide
  have hm : (⟨3, "Y", "X", 2⟩ : InterruptionEvent)
      ∈ (analyzeApp [⟨0, 5, "X"⟩, ⟨3, 8, "Y"⟩]).2 := by
    rw [hv]; exact List.mem_singleton_self _
  exact ⟨hm, c4_overlap_duration_nonneg _ _ hm⟩

/-- Claim C5: the per-speaker totals depend only on the multiset of
turns — for any permutation of the input, every speaker's accumulated
total is unchanged. -/
theorem c5_totals_order_independent (ts₁ ts₂ : List Turn)
    (h : ts₁.Perm ts₂) (s : String) :
    lookupD (analyzeApp ts₁).1 s = lookupD (analyzeApp ts₂).1 s := by
  rw [analyzeApp_fst, analyzeApp_fst, lookupD_foldl_accStep,
    lookupD_foldl_accStep]
  rw [((h.filter (fun t => t.speaker = s)).map
    (fun t => t.«end» - t.start)).sum_eq]

/-- Witness for C5: swapping the two turns of a concrete input leaves
the total of speaker "X" unchanged. -/
theorem c5_totals_order_independent_witness :
    lookupD (analyzeApp [⟨0, 5, "X"⟩, ⟨3, 8, "Y"⟩]).1 "X"
      = lookupD (analyzeApp [⟨3, 8, "Y"⟩, ⟨0, 5, "X"⟩]).1 "X" :=
  c5_totals_order_independent _ _ (List.Perm.swap _ _ _) "X"

/-- Claim C8: the report's `total_speakers` is the number of distinct
speaker keys of the accumulator mapping, `total_interruptions` is the
length of the interruption sequence, and every reported speaking time
is the accumulated total rounded to two decimal places. -/
theorem c8_report_builder (ts : List Turn) :
    (buildReport (analyzeApp ts).1 (analyzeApp ts).2).total_speakers
      = (((analyzeApp ts).1.map Prod.fst).dedup).length
    ∧ (buildReport (analyzeApp ts).1 (analyzeApp ts).2).total_interruptions
      = (analyzeApp ts).2.length
    ∧ (buildReport (analyzeApp ts).1 (analyzeApp ts).2).speaking_times
      = (analyzeApp ts).1.map (fun p => (p.1, rnd2 p.2)) := by
  refine ⟨?_, rfl, rfl⟩
  have hnd : (((analyzeApp ts).1).map Prod.fst).Nodup := by
    rw [analyzeApp_fst]
    exact keys_nodup_foldl_accStep ts [] (by simp)
  rw [List.Nodup.dedup hnd]
  simp [buildReport]

/-! ## The custom implementation (`voice_ai_agent_custom.py`) -/

/-- The character of a decimal digit, `'0'` to `'9'`. -/
def digitChar (d : ℕ) : Char := Char.ofNat (48 + d)

/-- The decimal digit sequence of `n`, most significant digit first
(`[0]` for `n = 0`), as rendered by Python's decimal formatting. -/
def decDigits (n : ℕ) : List ℕ :=
  if n = 0 then [0] else (Nat.digits 10 n).reverse

/-- The character sequence of Python's decimal rendering of `n`. -/
def natStr (n : ℕ) : List Char := (decDigits n).map digitChar

/-- Python's format spec `{n:02d}`: the decimal rendering of `n`,
left-padded with `'0'` to width 2. -/
def padded2 (n : ℕ) : List Char :=
  if n < 10 then '0' :: natStr n else natStr n

/-- Python `f"SPEAKER_{n:02d}"` from `voice_ai_agent_custom.py` line 90. -/
def speakerLabel (n : ℕ) : String := "SPEAKER_" ++ String.mk (padded2 n)

/-- The segment conversion of `analyze_speakers_and_interruptions`
(`voice_ai_agent_custom.py` lines 81-91): each well-formed
segmentation item appends a segment with the item's `start` and `end`
and the fresh label `SPEAKER_{len(segments):02d}`.  An input item is a
`(Segment, embedding)` tuple of which only `segment_obj.start` and
`segment_obj.end` are read; we model an item by a `Turn` so that an
upstream speaker identity can be carried — the conversion never reads
it. -/
def convertSegments (segmentation : List Turn) : List Turn :=
  segmentation.foldl
    (fun segments item =>
      segments ++ [⟨item.start, item.«end», speakerLabel segments.length⟩]) []

/-- The body of the loop of `analyze_speakers_and_interruptions`
(lines 99-116): same speaking-time accumulation as `app.py`, but the
interruption test checks only `segment['start'] <
prev_segment['end']` — there is no same-speaker condition. -/
def stepCustom (st : List (String × ℚ) × List InterruptionEvent × Option Turn)
    (segment : Turn) :
    List (String × ℚ) × List InterruptionEvent × Option Turn :=
  let speaking := addTime st.1 segment.speaker (segment.«end» - segment.start)
  let ints :=
    match st.2.2 with
    | some prev =>
        if segment.start < prev.«end» then
          st.2.1 ++ [⟨rnd2 segment.start, segment.speaker, prev.speaker,
                      rnd2 (prev.«end» - segment.start)⟩]
        else st.2.1
    | none => st.2.1
  (speaking, ints, some segment)

/-- Function `analyze_speakers_and_interruptions` (lines 76-118): convert the
segmentation, then run the accumulation / interruption loop; returns
`(speaking_times, interruptions)`. -/
def analyzeCustom (segmentation : List Turn) :
    List (String × ℚ) × List InterruptionEvent :=
  let segments := convertSegments segmentation
  let r := segments.foldl stepCustom ([], [], none)
  (r.1, r.2.1)

/-! ## Injectivity of the generated speaker labels -/

theorem decDigits_lt (n : ℕ) : ∀ d ∈ decDigits n, d < 10 := by
  intro d hd
  unfold decDigits at hd
  split_ifs at hd with h
  · simp only [List.mem_singleton] at hd
    omega
  · rw [List.mem_reverse] at hd
    exact Nat.digits_lt_base (by norm_num) hd

theorem digitChar_inj_lt :
    ∀ d, d < 10 → ∀ e, e < 10 → digitChar d = digitChar e → d = e := by
  decide

theorem map_digitChar_inj (l₁ : List ℕ) (h₁ : ∀ d ∈ l₁, d < 10)
    (l₂ : List ℕ) (h₂ : ∀ d ∈ l₂, d < 10)
    (h : l₁.map digitChar = l₂.map digitChar) : l₁ = l₂ := by
  induction l₁ generalizing l₂ with
  | nil =>
      cases l₂ with
      | nil => rfl
      | cons b m => simp at h
  | cons a l ih =>
      cases l₂ with
      | nil => simp at h
      | cons b m =>
          simp only [List.map_cons, List.cons.injEq] at h
          have ha : a = b :=
            digitChar_inj_lt a (h₁ a (by simp)) b (h₂ b (by simp)) h.1
          have hl : l = m :=
            ih (fun d hd => h₁ d (by simp [hd])) m
              (fun d hd => h₂ d (by simp [hd])) h.2
          rw [ha, hl]

theorem decDigits_getLast_ne_zero (b : ℕ) (hb : b ≠ 0)
    (l : List ℕ) (h : Nat.digits 10 b = l ++ [0]) : False := by
  have h5 : (Nat.digits 10 b).getLast? = some 0 := by
    rw [h]
    exact List.getLast?_concat l
  have h6 := Nat.getLast_digit_ne_zero 10 hb
  have h7 := List.getLast?_eq_getLast (Nat.digits 10 b)
    (Nat.digits_ne_nil_iff_ne_zero.mpr hb)
  rw [h5] at h7
  exact h6 (Option.some.inj h7).symm

theorem decDigits_inj (a b : ℕ) (h : decDigits a = decDigits b) : a = b := by
  have key : ∀ x y : ℕ, x = 0 → y ≠ 0 → decDigits x = decDigits y → False := by
    intro x y hx hy hxy
    rw [decDigits, if_pos hx, decDigits, if_neg hy] at hxy
    have hd : Nat.digits 10 y = [] ++ [0] := by
      have := congrArg List.reverse hxy
      simpa using this.symm
    exact decDigits_getLast_ne_zero y hy [] hd
  by_cases ha : a = 0 <;> by_cases hb : b = 0
  · rw [ha, hb]
  · exact absurd (key a b ha hb h) id
  · exact absurd (key b a hb ha h.symm) id
  · rw [decDigits, if_neg ha, decDigits, if_neg hb] at h
    have hd := List.reverse_injective h
    calc a = Nat.ofDigits 10 (Nat.digits 10 a) := (Nat.ofDigits_digits 10 a).symm
      _ = Nat.ofDigits 10 (Nat.digits 10 b) := by rw [hd]
      _ = b := Nat.ofDigits_digits 10 b

theorem natStr_inj (a b : ℕ) (h : natStr a = natStr b) : a = b :=
  decDigits_inj a b
    (map_digitChar_inj _ (decDigits_lt a) _ (decDigits_lt b) h)

theorem padded2_mixed_absurd (a b : ℕ) (hb : ¬ b < 10)
    (h : '0' :: natStr a = natStr b) : False := by
  have hb0 : b ≠ 0 := by omega
  have h' : (0 :: decDigits a).map digitChar = (decDigits b).map digitChar := by
    simpa [natStr] using h
  have h2 : 0 :: decDigits a = decDigits b :=
    map_digitChar_inj _
      (by
        intro d hd
        rcases List.mem_cons.mp hd with h0 | h0
        · omega
        · exact decDigits_lt a d h0)
      _ (decDigits_lt b) h'
  have hdb : decDigits b = (Nat.digits 10 b).reverse := by
    rw [decDigits, if_neg hb0]
  have h3 : (Nat.digits 10 b).reverse = 0 :: decDigits a := by
    rw [← hdb]
    exact h2.symm
  have h4 : Nat.digits 10 b = (decDigits a).reverse ++ [0] := by
    have := congrArg List.reverse h3
    simpa using this
  exact decDigits_getLast_ne_zero b hb0 _ h4

theorem padded2_inj (a b : ℕ) (h : padded2 a = padded2 b) : a = b := by
  unfold padded2 at h
  by_cases ha : a < 10 <;> by_cases hb : b < 10
  · rw [if_pos ha, if_pos hb] at h
    simp only [List.cons.injEq, true_and] at h
    exact natStr_inj a b h
  · rw [if_pos ha, if_neg hb] at h
    exact absurd (padded2_mixed_absurd a b hb h) id
  · rw [if_neg ha, if_pos hb] at h
    exact absurd (padded2_mixed_absurd b a ha h.symm) id
  · rw [if_neg ha, if_neg hb] at h
    exact natStr_inj a b h

theorem speakerLabel_injective : Function.Injective speakerLabel := by
  intro a b h
  unfold speakerLabel at h
  have hd := congrArg String.data h
  simp only [String.data_append] at hd
  exact padded2_inj a b (List.append_cancel_left hd)

/-! ## Characterization of the segment conversion -/

theorem convertSegments_go (l : List Turn) (acc : List Turn) :
    l.foldl
      (fun segments item =>
        segments ++ [⟨item.start, item.«end», speakerLabel segments.length⟩])
      acc
    = acc ++ (l.enumFrom acc.length).map
        (fun p => ⟨p.2.start, p.2.«end», speakerLabel p.1⟩) := by
  induction l generalizing acc with
  | nil => simp
  | cons t l ih =>
      rw [List.foldl_cons, ih]
      simp [List.enumFrom]

theorem convertSegments_eq (l : List Turn) :
    convertSegments l
      = l.enum.map (fun p => ⟨p.2.start, p.2.«end», speakerLabel p.1⟩) := by
  unfold convertSegments
  simpa [List.enum] using convertSegments_go l []

theorem convertSegments_speakers (l : List Turn) :
    (convertSegments l).map Turn.speaker
      = (List.range l.length).map speakerLabel := by
  rw [convertSegments_eq, List.map_map, ← List.enum_map_fst l, List.map_map]
  rfl

theorem convertSegments_relabel (l : List Turn) (f : Turn → String) :
    convertSegments (l.map (fun t => { t with speaker := f t }))
      = convertSegments l := by
  rw [convertSegments_eq, convertSegments_eq, List.enum_map, List.map_map]
  rfl

/-! ## Projection lemmas for the custom loop -/

theorem foldl_stepCustom_fst (l : List Turn)
    (st : List (String × ℚ) × List InterruptionEvent × Option Turn) :
    (l.foldl stepCustom st).1 = l.foldl accStep st.1 := by
  induction l generalizing st with
  | nil => rfl
  | cons t l ih => simpa [stepCustom, accStep] using ih (stepCustom st t)

theorem addTime_fresh (m : List (String × ℚ)) (k : String) (d : ℚ)
    (h : k ∉ m.map Prod.fst) : addTime m k d = m ++ [(k, d)] := by
  induction m with
  | nil => rfl
  | cons p rest ih =>
      obtain ⟨a, b⟩ := p
      simp only [List.map_cons, List.mem_cons, not_or] at h
      have hak : ¬ a = k := fun e => h.1 e.symm
      simp [addTime, hak, ih h.2]

theorem foldl_accStep_fresh (l : List Turn) (m : List (String × ℚ))
    (hfresh : ∀ t ∈ l, t.speaker ∉ m.map Prod.fst)
    (hnd : (l.map Turn.speaker).Nodup) :
    l.foldl accStep m
      = m ++ l.map (fun t => (t.speaker, t.«end» - t.start)) := by
  induction l generalizing m with
  | nil => simp
  | cons t l ih =>
      simp only [List.map_cons, List.nodup_cons] at hnd
      have h1 : accStep m t = m ++ [(t.speaker, t.«end» - t.start)] :=
        addTime_fresh m t.speaker _ (hfresh t (by simp))
      rw [List.foldl_cons, h1, ih]
      · simp
      · intro u hu
        simp only [List.map_append, List.map_cons, List.map_nil,
          List.mem_append, List.mem_singleton, not_or]
        refine ⟨hfresh u (by simp [hu]), ?_⟩
        intro he
        exact hnd.1 (he ▸ List.mem_map_of_mem Turn.speaker hu)
      · exact hnd.2

theorem convertSegments_speakers_nodup (l : List Turn) :
    ((convertSegments l).map Turn.speaker).Nodup := by
  rw [convertSegments_speakers]
  exact (List.nodup_range l.length).map speakerLabel_injective

theorem analyzeCustom_fst (segs : List Turn) :
    (analyzeCustom segs).1
      = (convertSegments segs).map
          (fun t => (t.speaker, t.«end» - t.start)) := by
  show ((convertSegments segs).foldl stepCustom ([], [], none)).1 = _
  rw [foldl_stepCustom_fst]
  simpa using
    foldl_accStep_fresh (convertSegments segs) [] (by simp)
      (convertSegments_speakers_nodup segs)

/-! ## Concrete values of the generated labels -/

theorem speakerLabel_zero : speakerLabel 0 = "SPEAKER_00" := by decide

theorem speakerLabel_one : speakerLabel 1 = "SPEAKER_01" := by
  have h1 : Nat.digits 10 1 = [1] := by
    rw [Nat.digits_def' (by norm_num : (1 : ℕ) < 10) one_pos]
    norm_num
  simp only [speakerLabel, padded2, natStr, decDigits, h1]
  decide

/-- Claim C10: in `analyze_speakers_and_interruptions` every accepted
segment gets the fresh positional label `SPEAKER_{index}`; the labels
of one run are pairwise distinct, the speaking-time mapping has
exactly one entry per segment (so `total_speakers` equals the segment
count), and relabelling the input segments with any upstream speaker
identity does not change the result. -/
theorem c10_fresh_speaker_labels (segs : List Turn) (f : Turn → String) :
    analyzeCustom (segs.map (fun t => { t with speaker := f t }))
      = analyzeCustom segs
    ∧ (analyzeCustom segs).1.map Prod.fst
        = (List.range segs.length).map speakerLabel
    ∧ ((analyzeCustom segs).1.map Prod.fst).Nodup
    ∧ (analyzeCustom segs).1.length = segs.length
    ∧ (buildReport (analyzeCustom segs).1
        (analyzeCustom segs).2).total_speakers = segs.length := by
  have hkeys : (analyzeCustom segs).1.map Prod.fst
      = (List.range segs.length).map speakerLabel := by
    rw [analyzeCustom_fst, List.map_map]
    have : (Prod.fst ∘ fun t : Turn => (t.speaker, t.«end» - t.start))
        = Turn.speaker := rfl
    rw [this, convertSegments_speakers]
  have hlen : (analyzeCustom segs).1.length = segs.length := by
    have := congrArg List.length hkeys
    simpa using this
  refine ⟨?_, hkeys, ?_, hlen, ?_⟩
  · unfold analyzeCustom
    rw [convertSegments_relabel]
  · rw [hkeys]
    exact (List.nodup_range segs.length).map speakerLabel_injective
  · simpa [buildReport] using hlen

/-- Claim C3 counterexample: `analyze_speakers_and_interruptions` in
`voice_ai_agent_custom.py` does emit an interruption event for the
overlapping pair A(0,5,"X"), B(3,8,"X") even though both carry the
same upstream speaker identity: it relabels the segments
`SPEAKER_00`, `SPEAKER_01` and tests only temporal overlap, so the
interruption sequence is not empty. -/
theorem c3_counterexample :
    (analyzeCustom [⟨0, 5, "X"⟩, ⟨3, 8, "X"⟩]).2
      = [⟨3, "SPEAKER_01", "SPEAKER_00", 2⟩]
    ∧ (analyzeCustom [⟨0, 5, "X"⟩, ⟨3, 8, "X"⟩]).2 ≠ [] := by
  have hconv : convertSegments [⟨0, 5, "X"⟩, ⟨3, 8, "X"⟩]
      = [⟨0, 5, "SPEAKER_00"⟩, ⟨3, 8, "SPEAKER_01"⟩] := by
    rw [convertSegments_eq]
    simp [List.enum, List.enumFrom, speakerLabel_zero, speakerLabel_one]
  have hval : (analyzeCustom [⟨0, 5, "X"⟩, ⟨3, 8, "X"⟩]).2
      = [⟨3, "SPEAKER_01", "SPEAKER_00", 2⟩] := by
    show (((convertSegments [⟨0, 5, "X"⟩, ⟨3, 8, "X"⟩]).foldl stepCustom
        ([], [], none)).2.1) = _
    rw [hconv]
    norm_num [stepCustom, addTime, rnd2]
  exact ⟨hval, by rw [hval]; simp⟩
